import Mathlib

/-!
Shallow embedding of the ThinkOne Telegram news backend (`app.py`).

Strings are modelled as `List Char` (named `Str`), timestamps as `Int`,
Telegram message ids as `Int`.  The external Telethon client is modelled
as an oracle record `TgEnv` supplying the results of `get_entity` and
`get_messages`; exceptions raised by Python code are modelled with
`Except`.  Every definition is a direct translation of the corresponding
Python code in `src/app.py`.
-/

/-- Strings of the Python program, modelled as lists of characters. -/
abbrev Str := List Char

/-- Characters stripped by Python `str.strip()` (the ASCII whitespace set). -/
def isPySpace (c : Char) : Bool :=
  c = ' ' || c = '\t' || c = '\n' || c = '\r' || c = '\x0b' || c = '\x0c'

/-- Python `s.strip()`: drop leading and trailing whitespace. -/
def pyStrip (s : Str) : Str :=
  ((s.dropWhile isPySpace).reverse.dropWhile isPySpace).reverse

/-- Fuel-indexed worker for `removeAll`; the fuel bounds the length of the
remaining input, keeping the recursion structural. -/
def removeAllAux (pat : Str) : Nat → Str → Str
  | _, [] => []
  | 0, s => s
  | fuel + 1, c :: rest =>
    if pat.isPrefixOf (c :: rest) && !pat.isEmpty then
      removeAllAux pat fuel (rest.drop (pat.length - 1))
    else
      c :: removeAllAux pat fuel rest

/-- Python `s.replace(pat, "")`: remove every (left-to-right, non-overlapping)
occurrence of `pat` from `s`.  Only the empty-replacement case is needed by
`resolve_channel`. -/
def removeAll (pat : Str) (s : Str) : Str :=
  removeAllAux pat s.length s

theorem removeAllAux_fuel_irrel (pat : Str) :
    ∀ (fuel fuel' : Nat) (s : Str), s.length ≤ fuel → s.length ≤ fuel' →
      removeAllAux pat fuel s = removeAllAux pat fuel' s := by
  intro fuel
  induction fuel with
  | zero =>
    intro fuel' s h _
    have : s = [] := List.length_eq_zero.mp (Nat.le_zero.mp h)
    subst this
    cases fuel' <;> rfl
  | succ fuel ih =>
    intro fuel' s h h'
    cases s with
    | nil => cases fuel' <;> rfl
    | cons c rest =>
      cases fuel' with
      | zero => simp at h'
      | succ fuel' =>
        simp only [List.length_cons, Nat.succ_le_succ_iff] at h h'
        simp only [removeAllAux]
        by_cases hp : (pat.isPrefixOf (c :: rest) && !pat.isEmpty) = true
        · rw [if_pos hp, if_pos hp]
          have hd : (rest.drop (pat.length - 1)).length ≤ rest.length := by
            rw [List.length_drop]; omega
          exact ih fuel' _ (le_trans hd h) (le_trans hd h')
        · rw [if_neg hp, if_neg hp, ih fuel' rest h h']

theorem removeAll_nil (pat : Str) : removeAll pat [] = [] := rfl

theorem removeAll_cons (pat : Str) (c : Char) (rest : Str) :
    removeAll pat (c :: rest) =
      if pat.isPrefixOf (c :: rest) && !pat.isEmpty then
        removeAll pat (rest.drop (pat.length - 1))
      else
        c :: removeAll pat rest := by
  show removeAllAux pat (rest.length + 1) (c :: rest) = _
  simp only [removeAllAux]
  have hd : (rest.drop (pat.length - 1)).length ≤ rest.length := by
    rw [List.length_drop]; omega
  by_cases hp : (pat.isPrefixOf (c :: rest) && !pat.isEmpty) = true
  · rw [if_pos hp, if_pos hp]
    exact removeAllAux_fuel_irrel pat rest.length _ _ hd le_rfl
  · rw [if_neg hp, if_neg hp]
    rfl

/-- The `https://t.me/` prefix literal from `resolve_channel`. -/
def tmePrefixStr : Str := "https://t.me/".toList

/-- The normalisation performed by `resolve_channel` on its input before the
backend lookup: `entity.strip().replace("https://t.me/", "").replace("@", "")`.
Note that Python `str.replace` removes every occurrence, not only a leading
one. -/
def normEntity (s : Str) : Str :=
  removeAll ['@'] (removeAll tmePrefixStr (pyStrip s))

/-- Remove one leading `@` from a string, if present. -/
def stripLeadingAt : Str → Str
  | [] => []
  | c :: rest => if c = '@' then rest else c :: rest

/-- Modelled from the spec claim wording (for comparison with `normEntity`):
strip surrounding whitespace, then remove one leading `https://t.me/` prefix,
then remove one leading `@`; characters elsewhere are left unchanged. -/
def normEntitySpec (s : Str) : Str :=
  let t := pyStrip s
  stripLeadingAt (if tmePrefixStr.isPrefixOf t then t.drop tmePrefixStr.length else t)

/-- Does `pat` occur as a contiguous substring of `s`? -/
def hasSubstr (pat : Str) : Str → Bool
  | [] => pat.isPrefixOf []
  | c :: rest => pat.isPrefixOf (c :: rest) || hasSubstr pat rest

theorem removeAll_of_not_hasSubstr (pat : Str) (s : Str)
    (h : hasSubstr pat s = false) : removeAll pat s = s := by
  induction s with
  | nil => rfl
  | cons c rest ih =>
    simp only [hasSubstr, Bool.or_eq_false_iff] at h
    rw [removeAll_cons, if_neg (by simp [h.1]), ih h.2]

theorem hasSubstr_of_isPrefixOf (pat s : Str) (h : pat.isPrefixOf s = true) :
    hasSubstr pat s = true := by
  cases s with
  | nil => simpa [hasSubstr] using h
  | cons c rest => simp [hasSubstr, h]

theorem removeAll_single_not_mem (c : Char) (s : Str) (h : c ∉ s) :
    removeAll [c] s = s := by
  apply removeAll_of_not_hasSubstr
  induction s with
  | nil => simp [hasSubstr, List.isPrefixOf]
  | cons d rest ih =>
    simp only [List.mem_cons, not_or] at h
    simp only [hasSubstr, Bool.or_eq_false_iff]
    constructor
    · simp [List.isPrefixOf]
      intro hcd
      exact absurd hcd h.1
    · exact ih h.2

theorem removeAll_append_self (pat u : Str) (hne : pat ≠ []) :
    removeAll pat (pat ++ u) = removeAll pat u := by
  match pat, hne with
  | p :: ps, _ =>
    rw [List.cons_append, removeAll_cons]
    have hpre : List.isPrefixOf (p :: ps) (p :: (ps ++ u)) = true := by
      rw [List.isPrefixOf_iff_prefix]
      exact (p :: ps).prefix_append u
    rw [if_pos (by simp [hpre])]
    simp only [List.length_cons, Nat.add_sub_cancel]
    rw [List.drop_left]

theorem not_isPrefixOf_of_not_hasSubstr (pat s : Str) (h : hasSubstr pat s = false) :
    pat.isPrefixOf s = false := by
  cases hp : pat.isPrefixOf s with
  | false => rfl
  | true => rw [hasSubstr_of_isPrefixOf pat s hp] at h; exact h

theorem stripLeadingAt_of_not_mem (u : Str) (h : '@' ∉ u) : stripLeadingAt u = u := by
  cases u with
  | nil => rfl
  | cons c rest =>
    simp only [List.mem_cons, not_or] at h
    rw [stripLeadingAt, if_neg (fun hc => h.1 hc.symm)]

theorem tmePrefixStr_eq :
    tmePrefixStr = ['h', 't', 't', 'p', 's', ':', '/', '/', 't', '.', 'm', 'e', '/'] := rfl

theorem hasSubstr_tme_at_cons (u : Str) (h : hasSubstr tmePrefixStr u = false) :
    hasSubstr tmePrefixStr ('@' :: u) = false := by
  simp only [hasSubstr, Bool.or_eq_false_iff]
  refine ⟨?_, h⟩
  rw [tmePrefixStr_eq]
  simp [List.isPrefixOf]

/-- The normalisation the code actually performs: `removeAll` removes every
occurrence of the patterns.  On the documented identifier shapes
(`username`, `@username`, `https://t.me/username`, where the username itself
contains no `@` and no `https://t.me/` substring) it agrees with the
leading-prefix-only normalisation claimed by the spec. -/
theorem normEntity_documented_forms (s u : Str)
    (hat : '@' ∉ u) (htme : hasSubstr tmePrefixStr u = false) :
    (pyStrip s = u → normEntity s = u ∧ normEntitySpec s = u) ∧
    (pyStrip s = '@' :: u → normEntity s = u ∧ normEntitySpec s = u) ∧
    (pyStrip s = tmePrefixStr ++ u → normEntity s = u ∧ normEntitySpec s = u) := by
  refine ⟨?_, ?_, ?_⟩
  · intro hs
    constructor
    · rw [normEntity, hs, removeAll_of_not_hasSubstr _ _ htme,
        removeAll_single_not_mem _ _ hat]
    · rw [normEntitySpec, hs]
      rw [if_neg (by simp [not_isPrefixOf_of_not_hasSubstr _ _ htme])]
      exact stripLeadingAt_of_not_mem u hat
  · intro hs
    have htme' := hasSubstr_tme_at_cons u htme
    constructor
    · rw [normEntity, hs, removeAll_of_not_hasSubstr _ _ htme', removeAll_cons]
      rw [if_pos (by simp [List.isPrefixOf])]
      simpa using removeAll_single_not_mem '@' u hat
    · rw [normEntitySpec, hs]
      rw [if_neg (by simp [not_isPrefixOf_of_not_hasSubstr _ _ htme'])]
      simp [stripLeadingAt]
  · intro hs
    constructor
    · rw [normEntity, hs, removeAll_append_self _ _ (by rw [tmePrefixStr_eq]; simp),
        removeAll_of_not_hasSubstr _ _ htme, removeAll_single_not_mem _ _ hat]
    · rw [normEntitySpec, hs]
      rw [if_pos (by rw [List.isPrefixOf_iff_prefix]; exact tmePrefixStr.prefix_append u)]
      rw [List.drop_left]
      exact stripLeadingAt_of_not_mem u hat

/-! ## Decimal printing and parsing of integers

`fetch_one` produces `id=str(m.id)` and `get_news` consumes it with
`int(n.id)`; `resolve_channel` also calls `int(e)`.  `intToStr` models
Python `str()` on an `int`; `parsePyInt` models Python `int()` on a string
(restricted to the canonical decimal forms, i.e. an optional sign followed
by digits: no underscores or surrounding whitespace). -/

/-- The character of a decimal digit (`0 ≤ d ≤ 9`). -/
def digitCharOf (d : Nat) : Char := Char.ofNat (48 + d)

/-- Fuel-indexed decimal printer (structural recursion for kernel
evaluation); the fuel bounds the number of digits. -/
def natToStrAux : Nat → Nat → Str
  | 0, _ => []
  | fuel + 1, n =>
    if n < 10 then [digitCharOf n]
    else natToStrAux fuel (n / 10) ++ [digitCharOf (n % 10)]

/-- The decimal representation of a natural number, as Python `str()`
prints it. -/
def natToStr (n : Nat) : Str := natToStrAux (n + 1) n

/-- Python `str()` of an `int`: an optional leading minus sign followed by
the decimal digits. -/
def intToStr (i : Int) : Str :=
  if i < 0 then '-' :: natToStr i.natAbs else natToStr i.toNat

/-- The numeric value of a digit character. -/
def digToNat (c : Char) : Nat := c.toNat - 48

/-- Python `int()` on an unsigned decimal string: defined when the string is
non-empty and all characters are digits. -/
def parsePyNat (s : Str) : Option Nat :=
  if s.isEmpty then none
  else if s.all Char.isDigit then
    some (s.foldl (fun a c => 10 * a + digToNat c) 0)
  else none

/-- Python `int()` on a decimal string with an optional sign. -/
def parsePyInt (s : Str) : Option Int :=
  match s with
  | [] => none
  | c :: rest =>
    if c = '-' then (parsePyNat rest).map (fun n => -(Int.ofNat n))
    else if c = '+' then (parsePyNat rest).map Int.ofNat
    else (parsePyNat (c :: rest)).map Int.ofNat

/-! ## Data model: entities, messages, news items (`app.py`) -/

/-- The fields of a resolved Telethon entity that `app.py` reads.  `title`
is present on channels, `firstName` on users; `getattr` fallbacks in the
code are modelled with `Option`. -/
structure Entity where
  id : Int
  title : Option Str
  firstName : Option Str
  username : Option Str
deriving DecidableEq

/-- The fields of a Telethon `Message` that the news path reads.
`webpageUrl` models the `msg.media.webpage.url` getattr chain (absent when
the message has no web preview). -/
structure Msg where
  id : Int
  message : Option Str
  date : Int
  webpageUrl : Option Str
deriving DecidableEq

/-- One element of a `get_messages` result: either a proper `Message` or a
non-message service update, which `fetch_one` skips via `isinstance`. -/
inductive TLUpdate where
  | message (m : Msg)
  | service
deriving DecidableEq

/-- The `NewsItem` pydantic model.  `summary` is always `none`, `tags` always
`[]` and `media` always `none` in items built by `get_news`. -/
structure NewsItem where
  id : Str
  channel_id : Int
  channel_username : Option Str
  channel_title : Str
  title : Str
  text : Str
  source : Str
  sourceUrl : Option Str
  url : Option Str
  summary : Option Str
  publishedAt : Int
  tags : List Str
  media : Option Unit
deriving DecidableEq

/-- The fallback title literal. -/
def postFallback : Str := "Post".toList

/-- Python `text.split("\n", 1)[0]`: the segment before the first newline. -/
def splitFirstNl : Str → Str
  | [] => []
  | c :: rest => if c = '\n' then [] else c :: splitFirstNl rest

/-- `pick_title_and_url` from `app.py`:
`text = (msg.message or "").strip()`,
`title = text.split("\n", 1)[0][:120] or "Post"`, and the optional web
preview url. -/
def pick_title_and_url (m : Msg) : Str × Str × Option Str :=
  let text := pyStrip (m.message.getD [])
  let title := if (splitFirstNl text).take 120 = [] then postFallback
               else (splitFirstNl text).take 120
  (title, text, m.webpageUrl)

/-- `getattr(ent, "title", getattr(ent, "first_name", "Channel"))`. -/
def chanTitleOf (ent : Entity) : Str :=
  ent.title.getD (ent.firstName.getD "Channel".toList)

/-- The body of the `for m in msgs` loop in `fetch_one`: skip messages whose
stripped body is empty, otherwise build the `NewsItem` exactly as the code
does. -/
def newsItemOfMsg (ent : Entity) (m : Msg) : Option NewsItem :=
  let r := pick_title_and_url m
  if r.2.1 = [] then none
  else
    let chanTitle := chanTitleOf ent
    some {
      id := intToStr m.id
      channel_id := ent.id
      channel_username := ent.username
      channel_title := chanTitle
      title := r.1
      text := r.2.1
      source := chanTitle
      sourceUrl := ent.username.map (fun u => tmePrefixStr ++ u)
      url := r.2.2
      summary := none
      publishedAt := m.date
      tags := []
      media := none }

/-- The whole message loop of `fetch_one`: non-`Message` updates are skipped,
empty-bodied messages are dropped. -/
def itemsOfUpdates (ent : Entity) (ups : List TLUpdate) : List NewsItem :=
  ups.filterMap fun u =>
    match u with
    | .service => none
    | .message m => newsItemOfMsg ent m

/-! ## Sorting (`get_news`, lines 184-189)

Python `list.sort(key=..., reverse=...)` is a stable sort.  For a comparator
that is a total preorder, the stable sorted permutation of a list is unique,
so a stable insertion sort computes exactly the list `list.sort` produces. -/

/-- The three values accepted by the `sort` query parameter. -/
inductive SortMode where
  | newest
  | oldest
  | source
deriving DecidableEq

/-- Python `str.lower()` (ASCII model). -/
def lowerStr (s : Str) : Str := s.map Char.toLower

/-- Lexicographic strict comparison of strings by code point, as Python
compares `str` values. -/
def lexLt : Str → Str → Bool
  | [], [] => false
  | [], _ :: _ => true
  | _ :: _, [] => false
  | a :: as, b :: bs => if a < b then true else if b < a then false else lexLt as bs

/-- Comparator for `sort=newest` (`key=publishedAt, reverse=True`):
`a` may precede `b` iff `b.publishedAt ≤ a.publishedAt`. -/
def leNewest (a b : NewsItem) : Bool := decide (b.publishedAt ≤ a.publishedAt)

/-- Comparator for `sort=oldest` (`key=publishedAt`). -/
def leOldest (a b : NewsItem) : Bool := decide (a.publishedAt ≤ b.publishedAt)

/-- Comparator for `sort=source` (`key=(source.lower(), publishedAt),
reverse=True`): `a` may precede `b` iff `key(b) ≤ key(a)` lexicographically. -/
def leSource (a b : NewsItem) : Bool :=
  lexLt (lowerStr b.source) (lowerStr a.source) ||
    (decide (lowerStr b.source = lowerStr a.source) &&
      decide (b.publishedAt ≤ a.publishedAt))

/-- Stable insertion: place `a` before the first element it may precede. -/
def pyInsert (le : α → α → Bool) (a : α) : List α → List α
  | [] => [a]
  | b :: bs => if le a b then a :: b :: bs else b :: pyInsert le a bs

/-- Stable insertion sort, the unique stable sort for a total preorder
comparator. -/
def pySortBy (le : α → α → Bool) : List α → List α
  | [] => []
  | a :: rest => pyInsert le a (pySortBy le rest)

/-- The comparator selected by the `sort` parameter. -/
def comparatorOf : SortMode → NewsItem → NewsItem → Bool
  | .newest => leNewest
  | .oldest => leOldest
  | .source => leSource

/-- The sort step of `get_news`. -/
def pySort (mode : SortMode) (l : List NewsItem) : List NewsItem :=
  pySortBy (comparatorOf mode) l

/-! ## Pagination cursor (`get_news`, lines 193-198) -/

/-- Python `min` over a non-empty list. -/
def pyMin : List Int → Option Int
  | [] => none
  | x :: xs => some (xs.foldl min x)

/-- `int(n.id)` across a page; `none` as soon as one id fails to parse
(the `except` branch). -/
def parseIds : List NewsItem → Option (List Int)
  | [] => some []
  | it :: rest =>
    match parsePyInt it.id, parseIds rest with
    | some n, some ns => some (n :: ns)
    | _, _ => none

/-- `next_offset`: `min(int(n.id) for n in results)` when `results` is
non-empty and every id parses, otherwise `None`. -/
def nextOffsetOf (items : List NewsItem) : Option Int :=
  match items with
  | [] => none
  | _ :: _ =>
    match parseIds items with
    | some ns => pyMin ns
    | none => none

/-! ## The external Telethon client, as an oracle -/

/-- Result of `tg_client.get_entity` on a username string:
`usernameError` stands for `UsernameInvalidError` / `UsernameNotOccupiedError`
(carrying the stringified exception), `otherError` for any other exception. -/
inductive LookupResult where
  | ok (e : Entity)
  | usernameError (msg : Str)
  | otherError (msg : Str)

/-- The oracle for the external Telethon client: entity lookup by username
string, entity lookup by numeric id, and `get_messages` (which may raise a
transport error, modelled as `Except.error`).  `defaultChannels` models the
`TG_CHANNELS`-derived `DEFAULT_CHANNELS` list. -/
structure TgEnv where
  getEntityStr : Str → LookupResult
  getEntityInt : Int → Except Str Entity
  getMessages : Entity → Nat → Int → Except Str (List TLUpdate)
  defaultChannels : List Str

/-- An `HTTPException(status, detail)`. -/
structure HTTPError where
  status : Nat
  detail : Str
deriving DecidableEq

/-- The single-quote character (used in f-string literals of `app.py`). -/
def quoteChar : Char := Char.ofNat 39

/-- `f"Cannot resolve channel '{entity}': {ex}"`. -/
def cannotResolveMsg (entity ex : Str) : Str :=
  "Cannot resolve channel ".toList ++ [quoteChar] ++ entity ++ [quoteChar, ':', ' '] ++ ex

/-- The stringified `ValueError` raised by `int(e)` on a non-numeric string. -/
def invalidIntMsg (e : Str) : Str :=
  "invalid literal for int() with base 10: ".toList ++ [quoteChar] ++ e ++ [quoteChar]

/-- `resolve_channel` from `app.py`: normalise the identifier, look it up as
a username; on a username error retry `int(e)` as a numeric id; wrap every
failure into an `HTTPException(400, ...)`.  (`int(e)` raising `ValueError`
is caught by the inner `except Exception`.) -/
def resolve_channel (env : TgEnv) (entity : Str) : Except HTTPError Entity :=
  let e := normEntity entity
  match env.getEntityStr e with
  | .ok ent => .ok ent
  | .usernameError _ =>
    match parsePyInt e with
    | none => .error ⟨400, cannotResolveMsg entity (invalidIntMsg e)⟩
    | some n =>
      match env.getEntityInt n with
      | .ok ent => .ok ent
      | .error ex2 => .error ⟨400, cannotResolveMsg entity ex2⟩
  | .otherError ex => .error ⟨400, cannotResolveMsg entity ex⟩

/-! ## The `/api/tg/news` endpoint -/

/-- The per-channel task `fetch_one` of `get_news`.  Its `try` block wraps
only `resolve_channel`: a resolution failure is caught and recorded as an
error-map entry (`resolve_channel` can only raise `HTTPException`, so the
second `except Exception` arm is unreachable), while an exception from the
subsequent `tg_client.get_messages` call is NOT caught and propagates out of
the task. -/
def fetch_one (env : TgEnv) (limit : Nat) (offset_id : Int) (ch : Str) :
    Except Str (List NewsItem × Option (Str × Str)) :=
  match resolve_channel env ch with
  | .error ex => .ok ([], some (ch, ex.detail))
  | .ok ent =>
    match env.getMessages ent limit offset_id with
    | .error ex => .error ex
    | .ok msgs => .ok (itemsOfUpdates ent msgs, none)

/-- `asyncio.gather` over the per-channel tasks with
`return_exceptions=False`: if any task raises, the exception propagates and
the whole request fails (list order stands in for the timing-dependent
choice of which exception surfaces, which no claim depends on). -/
def gatherFetch (env : TgEnv) (limit : Nat) (offset_id : Int) :
    List Str → Except Str (List (List NewsItem × Option (Str × Str)))
  | [] => .ok []
  | ch :: rest =>
    match fetch_one env limit offset_id ch with
    | .error e => .error e
    | .ok p =>
      match gatherFetch env limit offset_id rest with
      | .error e => .error e
      | .ok ps => .ok (p :: ps)

/-- Python `dict` assignment `errors[ch] = reason`: update in place if the
key exists, else append. -/
def dictInsert (m : List (Str × Str)) (k : Str) (v : Str) : List (Str × Str) :=
  if m.any (fun p => decide (p.1 = k)) then
    m.map (fun p => if p.1 = k then (k, v) else p)
  else m ++ [(k, v)]

/-- The `errors` dict accumulated across the per-channel tasks. -/
def errorsOf (pairs : List (List NewsItem × Option (Str × Str))) : List (Str × Str) :=
  pairs.foldl (fun m p => match p.2 with | none => m | some kv => dictInsert m kv.1 kv.2) []

/-- `"; ".join(f"{k}:{v}" for k, v in errors.items())`. -/
def joinErrs : List (Str × Str) → Str
  | [] => []
  | [kv] => kv.1 ++ ':' :: kv.2
  | kv :: rest => kv.1 ++ ':' :: kv.2 ++ ';' :: ' ' :: joinErrs rest

/-- Python `s.split(",")` (empty segments kept). -/
def splitComma : Str → List Str
  | [] => [[]]
  | c :: rest =>
    if c = ',' then [] :: splitComma rest
    else
      match splitComma rest with
      | [] => [[c]]
      | g :: gs => (c :: g) :: gs

/-- The effective channel list of a request:
`[c.strip() for c in (channels.split(",") if channels else DEFAULT_CHANNELS) if c.strip()]`
(`channels=None` and `channels=""` both fall back to the default list). -/
def chanListOf (env : TgEnv) (channels : Option Str) : List Str :=
  let raw := match channels with
    | none => env.defaultChannels
    | some s => if s = [] then env.defaultChannels else splitComma s
  (raw.map pyStrip).filter (fun c => !c.isEmpty)

/-- The observable outcome of a successful `/api/tg/news` request: the
`NewsList` body plus the optional `X-TG-Errors` response header. -/
structure NewsResponse where
  total : Nat
  items : List NewsItem
  next_offset : Option Int
  xTgErrors : Option Str
deriving DecidableEq

/-- The truncated page of a request: merge all channels' items, sort, and
truncate to the first `limit` items (lines 180-191). -/
def pageOf (sort : SortMode) (limit : Nat)
    (pairs : List (List NewsItem × Option (Str × Str))) : List NewsItem :=
  (pySort sort ((pairs.map Prod.fst).flatten)).take limit

/-- The response built on the success path of `get_news` (lines 193-208):
`total = len(results)`, the page itself, the pagination cursor, and the
`X-TG-Errors` header iff the error dict is non-empty. -/
def respOf (sort : SortMode) (limit : Nat)
    (pairs : List (List NewsItem × Option (Str × Str))) : NewsResponse :=
  let page := pageOf sort limit pairs
  let errors := errorsOf pairs
  ⟨page.length, page, nextOffsetOf page,
    if errors.isEmpty then none else some (joinErrs errors)⟩

/-- The `get_news` endpoint: build the channel list (empty list returns an
empty page immediately), run the per-channel tasks, merge, sort, truncate to
`limit`, compute `next_offset`, and set the `X-TG-Errors` header iff the
error dict is non-empty.  An uncaught task exception makes the whole request
fail (`Except.error`). -/
def get_news (env : TgEnv) (channels : Option Str) (limit : Nat) (offset_id : Int)
    (sort : SortMode) : Except Str NewsResponse :=
  let chan_list := chanListOf env channels
  if chan_list.isEmpty then .ok ⟨0, [], none, none⟩
  else
    match gatherFetch env limit offset_id chan_list with
    | .error e => .error e
    | .ok pairs => .ok (respOf sort limit pairs)

/-! ## The `/api/tg/media/{channel_id}/{message_id}` endpoint -/

/-- A video attachment as read by `proxy_media`:
`getattr(msg.video, "mime_type", None)` / `getattr(msg.video, "size", None)`. -/
structure VideoAttachment where
  mime : Option Str
  size : Option Int
deriving DecidableEq

/-- A document attachment, same fields. -/
structure DocumentAttachment where
  mime : Option Str
  size : Option Int
deriving DecidableEq

/-- The attachment-related fields of the single message fetched by
`proxy_media`. -/
structure MediaMsg where
  photo : Bool
  video : Option VideoAttachment
  document : Option DocumentAttachment
deriving DecidableEq

/-- `"application/octet-stream"`, the generic binary fallback. -/
def octetStream : Str := "application/octet-stream".toList

/-- `"image/jpeg"`, the fixed type used for photos. -/
def imageJpeg : Str := "image/jpeg".toList

/-- Python truthiness of an optional string (`None` and `""` are falsy), as
tested by `if msg.video and getattr(msg.video, "mime_type", None):`. -/
def truthyOptStr : Option Str → Bool
  | none => false
  | some s => !s.isEmpty

/-- The content-type selection of `proxy_media` (lines 229-235): start from
the binary fallback, prefer a truthy video mime, else a truthy document
mime, else `image/jpeg` for photos. -/
def proxyMime (m : MediaMsg) : Str :=
  if truthyOptStr (m.video.bind VideoAttachment.mime) then
    (m.video.bind VideoAttachment.mime).getD octetStream
  else if truthyOptStr (m.document.bind DocumentAttachment.mime) then
    (m.document.bind DocumentAttachment.mime).getD octetStream
  else if m.photo then imageJpeg
  else octetStream

/-- A streamed media response: the downloaded bytes and the media type. -/
structure MediaResponse where
  body : List Nat
  mediaType : Str
deriving DecidableEq

/-- `proxy_media` after the entity lookup: `fetched` is the result of
`get_messages(ent, ids=message_id)` (`none` when the message does not
exist), `download` models `tg_client.download_media` into the in-memory
buffer.  404 when the message is missing or carries no photo/video/document,
otherwise stream the downloaded bytes with the inferred content type. -/
def proxy_media (download : MediaMsg → List Nat) (fetched : Option MediaMsg) :
    Except HTTPError MediaResponse :=
  match fetched with
  | none => .error ⟨404, "Media not found".toList⟩
  | some msg =>
    if !(msg.photo || msg.video.isSome || msg.document.isSome) then
      .error ⟨404, "Media not found".toList⟩
    else
      .ok ⟨download msg, proxyMime msg⟩

/-! ## Sorting lemmas -/

theorem mem_pyInsert (le : α → α → Bool) (a x : α) (l : List α) :
    x ∈ pyInsert le a l ↔ x = a ∨ x ∈ l := by
  induction l with
  | nil => simp [pyInsert]
  | cons b bs ih =>
    rw [pyInsert]
    by_cases h : le a b = true
    · simp [h]
    · simp only [if_neg h, List.mem_cons, ih]
      tauto

theorem mem_pySortBy (le : α → α → Bool) (x : α) (l : List α) :
    x ∈ pySortBy le l ↔ x ∈ l := by
  induction l with
  | nil => simp [pySortBy]
  | cons a rest ih => rw [pySortBy, mem_pyInsert, ih, List.mem_cons]

theorem pairwise_pyInsert (le : α → α → Bool)
    (htrans : ∀ a b c, le a b = true → le b c = true → le a c = true)
    (htotal : ∀ a b, le a b = true ∨ le b a = true)
    (a : α) (l : List α) (hl : l.Pairwise (fun x y => le x y = true)) :
    (pyInsert le a l).Pairwise (fun x y => le x y = true) := by
  induction l with
  | nil => simp [pyInsert]
  | cons b bs ih =>
    rw [pyInsert]
    rcases List.pairwise_cons.mp hl with ⟨hb, hbs⟩
    by_cases h : le a b = true
    · rw [if_pos h]
      refine List.pairwise_cons.mpr ⟨?_, hl⟩
      intro y hy
      rcases List.mem_cons.mp hy with rfl | hy
      · exact h
      · exact htrans a b y h (hb y hy)
    · have hba : le b a = true := (htotal a b).resolve_left h
      rw [if_neg h]
      refine List.pairwise_cons.mpr ⟨?_, ih hbs⟩
      intro y hy
      rcases (mem_pyInsert le a y bs).mp hy with rfl | hy
      · exact hba
      · exact hb y hy

theorem pairwise_pySortBy (le : α → α → Bool)
    (htrans : ∀ a b c, le a b = true → le b c = true → le a c = true)
    (htotal : ∀ a b, le a b = true ∨ le b a = true)
    (l : List α) : (pySortBy le l).Pairwise (fun x y => le x y = true) := by
  induction l with
  | nil => simp [pySortBy]
  | cons a rest ih => exact pairwise_pyInsert le htrans htotal a _ ih

theorem lexLt_irrefl (s : Str) : lexLt s s = false := by
  induction s with
  | nil => rfl
  | cons c rest ih => simp [lexLt, ih]

theorem lexLt_trans (a b c : Str) (hab : lexLt a b = true) (hbc : lexLt b c = true) :
    lexLt a c = true := by
  induction a generalizing b c with
  | nil =>
    cases b with
    | nil => simp [lexLt] at hab
    | cons y ys =>
      cases c with
      | nil => simp [lexLt] at hbc
      | cons z zs => simp [lexLt]
  | cons x xs ih =>
    cases b with
    | nil => simp [lexLt] at hab
    | cons y ys =>
      cases c with
      | nil => simp [lexLt] at hbc
      | cons z zs =>
        rw [lexLt] at hab hbc ⊢
        by_cases hxy : x < y
        · by_cases hyz : y < z
          · rw [if_pos (lt_trans hxy hyz)]
          · rw [if_neg hyz] at hbc
            by_cases hzy : z < y
            · simp [if_pos hzy] at hbc
            · have : y = z := le_antisymm (le_of_not_lt hzy) (le_of_not_lt hyz)
              rw [if_pos (this ▸ hxy)]
        · rw [if_neg hxy] at hab
          by_cases hyx : y < x
          · simp [if_pos hyx] at hab
          · have hxy' : x = y := le_antisymm (le_of_not_lt hyx) (le_of_not_lt hxy)
            simp only [if_neg hxy, if_neg hyx] at hab
            subst hxy'
            by_cases hxz : x < z
            · rw [if_pos hxz]
            · rw [if_neg hxz] at hbc ⊢
              by_cases hzx : z < x
              · simp [if_pos hzx] at hbc
              · rw [if_neg hzx] at hbc ⊢
                exact ih ys zs hab hbc

theorem lexLt_trichotomy (a b : Str) :
    lexLt a b = true ∨ a = b ∨ lexLt b a = true := by
  induction a generalizing b with
  | nil =>
    cases b with
    | nil => simp
    | cons y ys => left; rfl
  | cons x xs ih =>
    cases b with
    | nil => right; right; rfl
    | cons y ys =>
      rcases lt_trichotomy x y with hxy | rfl | hyx
      · left; rw [lexLt, if_pos hxy]
      · rcases ih ys with h | rfl | h
        · left; rw [lexLt, if_neg (lt_irrefl x), if_neg (lt_irrefl x)]; exact h
        · right; left; rfl
        · right; right; rw [lexLt, if_neg (lt_irrefl x), if_neg (lt_irrefl x)]; exact h
      · right; right; rw [lexLt, if_pos hyx]

theorem lexLt_asymm (a b : Str) (h : lexLt a b = true) : lexLt b a = false := by
  cases hba : lexLt b a with
  | false => rfl
  | true =>
    have := lexLt_trans a b a h hba
    rw [lexLt_irrefl] at this
    exact this.symm

theorem leSource_trans (a b c : NewsItem) (hab : leSource a b = true)
    (hbc : leSource b c = true) : leSource a c = true := by
  rw [leSource, Bool.or_eq_true, Bool.and_eq_true, decide_eq_true_iff, decide_eq_true_iff]
    at hab hbc ⊢
  rcases hab with h1 | ⟨h1, h1d⟩ <;> rcases hbc with h2 | ⟨h2, h2d⟩
  · exact Or.inl (lexLt_trans _ _ _ h2 h1)
  · exact Or.inl (h2 ▸ h1)
  · exact Or.inl (h1 ▸ h2)
  · exact Or.inr ⟨h2.trans h1, le_trans h2d h1d⟩

theorem leSource_total (a b : NewsItem) :
    leSource a b = true ∨ leSource b a = true := by
  rw [leSource, leSource, Bool.or_eq_true, Bool.or_eq_true, Bool.and_eq_true,
    Bool.and_eq_true, decide_eq_true_iff, decide_eq_true_iff, decide_eq_true_iff,
    decide_eq_true_iff]
  rcases lexLt_trichotomy (lowerStr a.source) (lowerStr b.source) with h | h | h
  · right; left; exact h
  · rcases le_total a.publishedAt b.publishedAt with hd | hd
    · right; right; exact ⟨h, hd⟩
    · left; right; exact ⟨h.symm, hd⟩
  · left; left; exact h

/-- C4: the returned items are ordered per the requested sort mode:
`sort=newest` yields `publishedAt` non-increasing, `sort=oldest`
non-decreasing, and `sort=source` yields `source` values non-increasing
case-insensitively with `publishedAt` non-increasing within an identical
`source` value. -/
theorem sort_modes_ordered (l : List NewsItem) :
    (pySort .newest l).Pairwise (fun a b => b.publishedAt ≤ a.publishedAt) ∧
    (pySort .oldest l).Pairwise (fun a b => a.publishedAt ≤ b.publishedAt) ∧
    (pySort .source l).Pairwise (fun a b =>
      (lexLt (lowerStr b.source) (lowerStr a.source) = true ∨
        lowerStr b.source = lowerStr a.source) ∧
      (a.source = b.source → b.publishedAt ≤ a.publishedAt)) := by
  refine ⟨?_, ?_, ?_⟩
  · have := pairwise_pySortBy leNewest
      (fun a b c hab hbc => by
        rw [leNewest, decide_eq_true_iff] at *
        exact le_trans hbc hab)
      (fun a b => by
        rw [leNewest, leNewest, decide_eq_true_iff, decide_eq_true_iff]
        exact (le_total b.publishedAt a.publishedAt))
      l
    exact this.imp (fun h => by rwa [leNewest, decide_eq_true_iff] at h)
  · have := pairwise_pySortBy leOldest
      (fun a b c hab hbc => by
        rw [leOldest, decide_eq_true_iff] at *
        exact le_trans hab hbc)
      (fun a b => by
        rw [leOldest, leOldest, decide_eq_true_iff, decide_eq_true_iff]
        exact (le_total a.publishedAt b.publishedAt))
      l
    exact this.imp (fun h => by rwa [leOldest, decide_eq_true_iff] at h)
  · have := pairwise_pySortBy leSource leSource_trans leSource_total l
    refine this.imp (fun {a b} h => ?_)
    rw [leSource, Bool.or_eq_true, Bool.and_eq_true, decide_eq_true_iff,
      decide_eq_true_iff] at h
    constructor
    · rcases h with h | ⟨h, _⟩
      · exact Or.inl h
      · exact Or.inr h
    · intro hsrc
      rcases h with h | ⟨_, hd⟩
      · rw [hsrc, lexLt_irrefl] at h
        exact absurd h (by simp)
      · exact hd

/-! ## Structure of a successful `get_news` response -/

theorem get_news_ok_elim (env : TgEnv) (channels : Option Str) (limit : Nat)
    (offset_id : Int) (sort : SortMode) (resp : NewsResponse)
    (h : get_news env channels limit offset_id sort = .ok resp) :
    (chanListOf env channels = [] ∧ resp = ⟨0, [], none, none⟩) ∨
    (chanListOf env channels ≠ [] ∧
      ∃ pairs, gatherFetch env limit offset_id (chanListOf env channels) = .ok pairs ∧
        resp = respOf sort limit pairs) := by
  rw [get_news] at h
  by_cases he : (chanListOf env channels).isEmpty = true
  · rw [if_pos he] at h
    left
    refine ⟨List.isEmpty_iff.mp he, ?_⟩
    cases h
    rfl
  · rw [if_neg he] at h
    right
    refine ⟨fun hc => he (by rw [hc]; rfl), ?_⟩
    cases hg : gatherFetch env limit offset_id (chanListOf env channels) with
    | error e => rw [hg] at h; cases h
    | ok pairs =>
      rw [hg] at h
      cases h
      exact ⟨pairs, rfl, rfl⟩

theorem pySort_nil (mode : SortMode) : pySort mode [] = [] := by
  cases mode <;> rfl

/-- C7: a successful `/news` response satisfies `total == len(items)` and
`len(items) <= limit`; the items are the first `limit` elements of a merged,
sorted sequence. -/
theorem news_total_and_limit (env : TgEnv) (channels : Option Str) (limit : Nat)
    (offset_id : Int) (sort : SortMode)
    (h1 : 1 ≤ limit) (h2 : limit ≤ 200) :
    ∀ resp, get_news env channels limit offset_id sort = .ok resp →
      resp.total = resp.items.length ∧ resp.items.length ≤ limit ∧
      ∃ all, resp.items = (pySort sort all).take limit := by
  intro resp h
  rcases get_news_ok_elim env channels limit offset_id sort resp h with
    ⟨_, rfl⟩ | ⟨_, pairs, _, rfl⟩
  · refine ⟨rfl, by simp, [], ?_⟩
    rw [pySort_nil]
    simp
  · refine ⟨rfl, ?_, ((pairs.map Prod.fst).flatten), rfl⟩
    exact List.length_take_le limit _

/-! ## Concrete environments used by the witnesses -/

/-- A channel entity. -/
def wEntA : Entity := ⟨11, some "Alpha".toList, none, some "alpha".toList⟩

/-- A second channel entity, without a username. -/
def wEntB : Entity := ⟨22, some "beta club".toList, none, none⟩

/-- A message with a two-line body. -/
def wMsgHello : Msg := ⟨10, some "Hello\nworld".toList, 100, none⟩

/-- A message whose body strips to empty. -/
def wMsgEmpty : Msg := ⟨9, some "  ".toList, 99, none⟩

/-- A single-line message. -/
def wMsgSecond : Msg := ⟨8, some "Second".toList, 98, none⟩

/-- A healthy environment: two resolvable channels, three messages. -/
def envW : TgEnv where
  getEntityStr := fun s =>
    if s = "alpha".toList then .ok wEntA
    else if s = "beta".toList then .ok wEntB
    else .usernameError "No user has this username".toList
  getEntityInt := fun n =>
    if n = 42 then .ok wEntB else .error "Could not find the input entity".toList
  getMessages := fun e _ _ =>
    if e.id = 11 then .ok [.message wMsgHello, .message wMsgEmpty, .service]
    else .ok [.message wMsgSecond]
  defaultChannels := []

/-- The channels query string used by the witnesses. -/
def wChans : Str := "alpha,beta".toList

/-- Like `envW`, but `get_messages` on the first channel raises a transport
error. -/
def envBoom : TgEnv :=
  { envW with
    getMessages := fun e l o =>
      if e.id = 11 then .error "ConnectionError".toList else envW.getMessages e l o }

/-- An environment in which no identifier resolves. -/
def envAllFail : TgEnv where
  getEntityStr := fun _ => .usernameError "No user has this username".toList
  getEntityInt := fun _ => .error "Could not find the input entity".toList
  getMessages := fun _ _ _ => .ok []
  defaultChannels := []

/-- C7 witness at a concrete request. -/
theorem news_total_and_limit_witness :
    ∃ resp, get_news envW (some wChans) 30 0 .newest = .ok resp ∧
      resp.total = resp.items.length ∧ resp.items.length ≤ 30 := by
  refine ⟨_, rfl, ?_⟩
  have := news_total_and_limit envW (some wChans) 30 0 .newest (by decide) (by decide) _ rfl
  exact ⟨this.1, this.2.1⟩

/-! ## Pagination cursor lemmas (C6) -/

theorem foldl_min_facts (xs : List Int) :
    ∀ a : Int, (xs.foldl min a = a ∨ xs.foldl min a ∈ xs) ∧
      xs.foldl min a ≤ a ∧ ∀ y ∈ xs, xs.foldl min a ≤ y := by
  induction xs with
  | nil => intro a; simp
  | cons x rest ih =>
    intro a
    rcases ih (min a x) with ⟨hmem, hle, hall⟩
    refine ⟨?_, ?_, ?_⟩
    · rcases hmem with h | h
      · rcases le_total a x with hax | hxa
        · left; rw [List.foldl_cons, h, min_eq_left hax]
        · right; rw [List.foldl_cons, h, min_eq_right hxa]; exact List.mem_cons_self x rest
      · right; exact List.mem_cons_of_mem x h
    · rw [List.foldl_cons]
      exact le_trans hle (min_le_left a x)
    · intro y hy
      rcases List.mem_cons.mp hy with rfl | hy
      · rw [List.foldl_cons]
        exact le_trans hle (min_le_right a y)
      · exact hall y hy

theorem pyMin_spec (xs : List Int) (v : Int) (h : pyMin xs = some v) :
    v ∈ xs ∧ ∀ y ∈ xs, v ≤ y := by
  cases xs with
  | nil => cases h
  | cons x rest =>
    rw [pyMin, Option.some_inj] at h
    subst h
    rcases foldl_min_facts rest x with ⟨hmem, hle, hall⟩
    constructor
    · rcases hmem with h | h
      · rw [h]; exact List.mem_cons_self x rest
      · exact List.mem_cons_of_mem x h
    · intro y hy
      rcases List.mem_cons.mp hy with rfl | hy
      · exact hle
      · exact hall y hy

theorem pyMin_isSome (xs : List Int) (h : xs ≠ []) : ∃ v, pyMin xs = some v := by
  cases xs with
  | nil => exact absurd rfl h
  | cons x rest => exact ⟨_, rfl⟩

theorem parseIds_mem (items : List NewsItem) (ns : List Int)
    (h : parseIds items = some ns) :
    (∀ v ∈ ns, ∃ it ∈ items, parsePyInt it.id = some v) ∧
    (∀ it ∈ items, ∀ n, parsePyInt it.id = some n → n ∈ ns) ∧
    (items = [] ↔ ns = []) := by
  induction items generalizing ns with
  | nil =>
    rw [parseIds, Option.some_inj] at h
    subst h
    simp
  | cons it rest ih =>
    rw [parseIds] at h
    cases hp : parsePyInt it.id with
    | none => rw [hp] at h; cases h
    | some n =>
      rw [hp] at h
      cases hr : parseIds rest with
      | none => rw [hr] at h; cases h
      | some ms =>
        rw [hr, Option.some_inj] at h
        subst h
        rcases ih ms hr with ⟨h1, h2, _⟩
        refine ⟨?_, ?_, by simp⟩
        · intro v hv
          rcases List.mem_cons.mp hv with rfl | hv
          · exact ⟨it, List.mem_cons_self it rest, hp⟩
          · rcases h1 v hv with ⟨it', hit', hip'⟩
            exact ⟨it', List.mem_cons_of_mem it hit', hip'⟩
        · intro it' hit' n' hn'
          rcases List.mem_cons.mp hit' with rfl | hit'
          · rw [hp, Option.some_inj] at hn'
            subst hn'
            exact List.mem_cons_self n ms
          · exact List.mem_cons_of_mem n (h2 it' hit' n' hn')

theorem parseIds_none_of_bad (items : List NewsItem)
    (h : ∃ it ∈ items, parsePyInt it.id = none) : parseIds items = none := by
  induction items with
  | nil => simp at h
  | cons it rest ih =>
    rcases h with ⟨it', hit', hbad⟩
    rw [parseIds]
    rcases List.mem_cons.mp hit' with rfl | hit'
    · rw [hbad]
    · rw [ih ⟨it', hit', hbad⟩]
      cases parsePyInt it.id <;> rfl

theorem parseIds_some_of_good (items : List NewsItem)
    (h : ∀ it ∈ items, ∃ n, parsePyInt it.id = some n) :
    ∃ ns, parseIds items = some ns := by
  induction items with
  | nil => exact ⟨[], rfl⟩
  | cons it rest ih =>
    rcases h it (List.mem_cons_self it rest) with ⟨n, hn⟩
    rcases ih (fun it' hit' => h it' (List.mem_cons_of_mem it hit')) with ⟨ns, hns⟩
    refine ⟨n :: ns, ?_⟩
    rw [parseIds, hn, hns]

theorem nextOffsetOf_characterised (items : List NewsItem) :
    (items = [] → nextOffsetOf items = none) ∧
    ((∃ it ∈ items, parsePyInt it.id = none) → nextOffsetOf items = none) ∧
    (∀ v, nextOffsetOf items = some v →
      (∃ it ∈ items, parsePyInt it.id = some v) ∧
      ∀ it ∈ items, ∀ n, parsePyInt it.id = some n → v ≤ n) := by
  refine ⟨?_, ?_, ?_⟩
  · intro h; subst h; rfl
  · intro h
    cases items with
    | nil => rfl
    | cons it rest =>
      rw [nextOffsetOf, parseIds_none_of_bad _ h]
  · intro v hv
    cases items with
    | nil => cases hv
    | cons it rest =>
      rw [nextOffsetOf] at hv
      cases hp : parseIds (it :: rest) with
      | none => rw [hp] at hv; cases hv
      | some ns =>
        rw [hp] at hv
        rcases pyMin_spec ns v hv with ⟨hvmem, hvle⟩
        rcases parseIds_mem (it :: rest) ns hp with ⟨h1, h2, _⟩
        exact ⟨h1 v hvmem, fun it' hit' n hn => hvle n (h2 it' hit' n hn)⟩

/-- C6: `next_offset`, when present, is the minimum integer-parsed `id`
across the returned items (it is the parse of some returned item's id and a
lower bound on every parseable id); it is absent when the page is empty or
some id fails to parse as an integer. -/
theorem news_next_offset_minimum (env : TgEnv) (channels : Option Str) (limit : Nat)
    (offset_id : Int) (sort : SortMode) (resp : NewsResponse)
    (h : get_news env channels limit offset_id sort = .ok resp) :
    (resp.items = [] → resp.next_offset = none) ∧
    ((∃ it ∈ resp.items, parsePyInt it.id = none) → resp.next_offset = none) ∧
    (∀ v, resp.next_offset = some v →
      (∃ it ∈ resp.items, parsePyInt it.id = some v) ∧
      ∀ it ∈ resp.items, ∀ n, parsePyInt it.id = some n → v ≤ n) := by
  have hshape : resp.next_offset = nextOffsetOf resp.items := by
    rcases get_news_ok_elim env channels limit offset_id sort resp h with
      ⟨_, rfl⟩ | ⟨_, pairs, _, rfl⟩
    · rfl
    · rfl
  rw [hshape]
  exact nextOffsetOf_characterised resp.items

/-- C6 witness at a concrete request: the page contains ids `10` and `8`, and
`next_offset = 8` is characterised as its minimum. -/
theorem news_next_offset_minimum_witness :
    ∃ resp, get_news envW (some wChans) 30 0 .newest = .ok resp ∧
      resp.next_offset = some 8 ∧
      (∃ it ∈ resp.items, parsePyInt it.id = some 8) := by
  refine ⟨_, rfl, by decide, ?_⟩
  exact ((news_next_offset_minimum envW (some wChans) 30 0 .newest _ rfl).2.2 8
    (by decide)).1

/-! ## Normalizer lemmas (C5) -/

theorem splitFirstNl_eq_takeWhile (s : Str) :
    splitFirstNl s = s.takeWhile (fun c => !decide (c = '\n')) := by
  induction s with
  | nil => rfl
  | cons c rest ih =>
    rw [splitFirstNl, List.takeWhile_cons]
    by_cases h : c = '\n'
    · rw [if_pos h]
      simp [h]
    · rw [if_neg h]
      simp only [h, decide_False, Bool.not_false, if_true]
      rw [ih]

theorem newsItemOfMsg_none_of_empty (ent : Entity) (m : Msg)
    (h : pyStrip (m.message.getD []) = []) : newsItemOfMsg ent m = none := by
  simp only [newsItemOfMsg, pick_title_and_url]
  rw [if_pos h]

theorem newsItemOfMsg_some_spec (ent : Entity) (m : Msg) (it : NewsItem)
    (h : newsItemOfMsg ent m = some it) :
    it.text = pyStrip (m.message.getD []) ∧ it.text ≠ [] ∧
    it.title =
      (if (it.text.takeWhile (fun c => !decide (c = '\n'))).take 120 = []
        then postFallback
        else (it.text.takeWhile (fun c => !decide (c = '\n'))).take 120) := by
  simp only [newsItemOfMsg, pick_title_and_url] at h
  by_cases he : pyStrip (m.message.getD []) = []
  · rw [if_pos he] at h; cases h
  · rw [if_neg he] at h
    rw [Option.some_inj] at h
    subst h
    refine ⟨rfl, he, ?_⟩
    rw [← splitFirstNl_eq_takeWhile]

/-- C5: a raw message whose body strips to empty is dropped by the
normalizer (and no returned item has empty text); for a non-empty stripped
body the item's `text` is the stripped body and its `title` is the segment
before the first newline truncated to 120 characters, with the literal
fallback `Post` substituted when that title is empty. -/
theorem normalizer_title_and_drop (ent : Entity) (m : Msg) :
    (pyStrip (m.message.getD []) = [] → newsItemOfMsg ent m = none) ∧
    (∀ it, newsItemOfMsg ent m = some it →
      it.text = pyStrip (m.message.getD []) ∧ it.text ≠ [] ∧
      it.title =
        (if (it.text.takeWhile (fun c => !decide (c = '\n'))).take 120 = []
          then postFallback
          else (it.text.takeWhile (fun c => !decide (c = '\n'))).take 120)) ∧
    (∀ ups : List TLUpdate, ∀ it ∈ itemsOfUpdates ent ups, it.text ≠ []) := by
  refine ⟨newsItemOfMsg_none_of_empty ent m, fun it h => newsItemOfMsg_some_spec ent m it h, ?_⟩
  intro ups it hit
  rcases List.mem_filterMap.mp hit with ⟨u, _, hu⟩
  cases u with
  | service => cases hu
  | message m' => exact (newsItemOfMsg_some_spec ent m' it hu).2.1

/-- C5 witness: the two-line body `"Hello\nworld"` yields `title="Hello"`
and full text; the whitespace-only body is dropped. -/
theorem normalizer_title_and_drop_witness :
    newsItemOfMsg wEntA wMsgEmpty = none ∧
    ∃ it, newsItemOfMsg wEntA wMsgHello = some it ∧
      it.title = "Hello".toList ∧ it.text = "Hello\nworld".toList := by
  constructor
  · exact (normalizer_title_and_drop wEntA wMsgEmpty).1 (by decide)
  · refine ⟨_, rfl, ?_, by decide⟩
    have := (normalizer_title_and_drop wEntA wMsgHello).2.1 _ rfl
    rw [this.2.2]
    decide

/-! ## Decimal round-trip (C10) -/

theorem digToNat_digitCharOf (d : Nat) (h : d < 10) :
    digToNat (digitCharOf d) = d ∧ (digitCharOf d).isDigit = true := by
  interval_cases d <;> exact ⟨by decide, by decide⟩

theorem natToStrAux_spec (fuel : Nat) :
    ∀ n, n < fuel →
      natToStrAux fuel n ≠ [] ∧ (∀ c ∈ natToStrAux fuel n, c.isDigit = true) ∧
      (natToStrAux fuel n).foldl (fun a c => 10 * a + digToNat c) 0 = n := by
  induction fuel with
  | zero => intro n hn; omega
  | succ fuel ih =>
    intro n hn
    rw [natToStrAux]
    by_cases h10 : n < 10
    · rw [if_pos h10]
      refine ⟨by simp, ?_, ?_⟩
      · intro c hc
        rcases List.mem_singleton.mp hc with rfl
        exact (digToNat_digitCharOf n h10).2
      · simp [List.foldl, (digToNat_digitCharOf n h10).1]
    · rw [if_neg h10]
      have hrec : n / 10 < fuel := by
        have h1 : n / 10 < n := Nat.div_lt_self (by omega) (by omega)
        omega
      rcases ih (n / 10) hrec with ⟨hne, hdig, hval⟩
      have hm : n % 10 < 10 := Nat.mod_lt n (by omega)
      refine ⟨by simp, ?_, ?_⟩
      · intro c hc
        rcases List.mem_append.mp hc with hc | hc
        · exact hdig c hc
        · rcases List.mem_singleton.mp hc with rfl
          exact (digToNat_digitCharOf _ hm).2
      · rw [List.foldl_append, hval]
        simp only [List.foldl]
        rw [(digToNat_digitCharOf _ hm).1]
        omega

theorem parsePyNat_natToStr (n : Nat) : parsePyNat (natToStr n) = some n := by
  rcases natToStrAux_spec (n + 1) n (Nat.lt_succ_self n) with ⟨hne, hdig, hval⟩
  rw [natToStr, parsePyNat,
    if_neg (by simp only [List.isEmpty_iff]; exact hne),
    if_pos (List.all_eq_true.mpr hdig), hval]

theorem isDigit_ne_sign (c : Char) (h : c.isDigit = true) : c ≠ '-' ∧ c ≠ '+' := by
  constructor
  · intro hc; rw [hc] at h; exact absurd h (by decide)
  · intro hc; rw [hc] at h; exact absurd h (by decide)

theorem parsePyInt_cons (c : Char) (rest : Str) :
    parsePyInt (c :: rest) =
      if c = '-' then (parsePyNat rest).map (fun n => -(Int.ofNat n))
      else if c = '+' then (parsePyNat rest).map Int.ofNat
      else (parsePyNat (c :: rest)).map Int.ofNat := rfl

theorem parsePyInt_intToStr (i : Int) : parsePyInt (intToStr i) = some i := by
  by_cases hi : i < 0
  · rw [intToStr, if_pos hi, parsePyInt_cons, if_pos rfl, parsePyNat_natToStr]
    rw [Option.map_some']
    congr 1
    simp only [Int.ofNat_eq_coe]
    omega
  · rw [intToStr, if_neg hi]
    rcases natToStrAux_spec (i.toNat + 1) i.toNat (Nat.lt_succ_self _) with ⟨hne, hdig, _⟩
    cases hcr : natToStrAux (i.toNat + 1) i.toNat with
    | nil => exact absurd hcr hne
    | cons c rest =>
      have hc : c.isDigit = true := hdig c (by rw [hcr]; exact List.mem_cons_self c rest)
      rcases isDigit_ne_sign c hc with ⟨hm, hp⟩
      rw [natToStr, hcr, parsePyInt_cons, if_neg hm, if_neg hp]
      have hpn : parsePyNat (c :: rest) = some i.toNat := by
        rw [← hcr, ← natToStr, parsePyNat_natToStr]
      rw [hpn, Option.map_some']
      congr 1
      simp only [Int.ofNat_eq_coe]
      omega

/-! ## Every item id produced by the pipeline is a printed integer -/

theorem newsItemOfMsg_id (ent : Entity) (m : Msg) (it : NewsItem)
    (h : newsItemOfMsg ent m = some it) : ∃ i : Int, it.id = intToStr i := by
  simp only [newsItemOfMsg, pick_title_and_url] at h
  by_cases he : pyStrip (m.message.getD []) = []
  · rw [if_pos he] at h; cases h
  · rw [if_neg he, Option.some_inj] at h
    subst h
    exact ⟨m.id, rfl⟩

theorem fetch_one_ok_items_id (env : TgEnv) (limit : Nat) (offset_id : Int) (ch : Str)
    (p : List NewsItem × Option (Str × Str)) (h : fetch_one env limit offset_id ch = .ok p) :
    ∀ it ∈ p.1, ∃ i : Int, it.id = intToStr i := by
  rw [fetch_one] at h
  split at h
  · cases h
    intro it hit
    simp at hit
  · split at h
    · cases h
    · cases h
      intro it hit
      rcases List.mem_filterMap.mp hit with ⟨u, _, hu⟩
      cases u with
      | service => cases hu
      | message m' => exact newsItemOfMsg_id _ m' it hu

theorem gatherFetch_items_id (env : TgEnv) (limit : Nat) (offset_id : Int) :
    ∀ (chs : List Str) (pairs : List (List NewsItem × Option (Str × Str))),
      gatherFetch env limit offset_id chs = .ok pairs →
      ∀ p ∈ pairs, ∀ it ∈ p.1, ∃ i : Int, it.id = intToStr i := by
  intro chs
  induction chs with
  | nil =>
    intro pairs h
    cases h
    intro p hp
    simp at hp
  | cons ch rest ih =>
    intro pairs h
    rw [gatherFetch] at h
    cases hf : fetch_one env limit offset_id ch with
    | error e => rw [hf] at h; cases h
    | ok p0 =>
      rw [hf] at h
      cases hg : gatherFetch env limit offset_id rest with
      | error e => rw [hg] at h; cases h
      | ok ps =>
        rw [hg] at h
        cases h
        intro p hp
        rcases List.mem_cons.mp hp with rfl | hp
        · exact fetch_one_ok_items_id env limit offset_id ch p hf
        · exact ih ps hg p hp

/-- C10: on every successful `/news` response with a non-empty page,
`next_offset` is present: each item id is the decimal string of the
backend's integer message id, so the unparseable-id branch is unreachable. -/
theorem news_nonempty_page_has_next_offset (env : TgEnv) (channels : Option Str)
    (limit : Nat) (offset_id : Int) (sort : SortMode) (resp : NewsResponse)
    (h : get_news env channels limit offset_id sort = .ok resp)
    (hne : resp.items ≠ []) : ∃ v, resp.next_offset = some v := by
  rcases get_news_ok_elim env channels limit offset_id sort resp h with
    ⟨_, rfl⟩ | ⟨_, pairs, hg, rfl⟩
  · exact absurd rfl hne
  · have hids : ∀ it ∈ pageOf sort limit pairs, ∃ i : Int, it.id = intToStr i := by
      intro it hit
      have h1 : it ∈ pySort sort ((pairs.map Prod.fst).flatten) :=
        List.take_subset _ _ hit
      rw [pySort, mem_pySortBy] at h1
      rcases List.mem_flatten.mp h1 with ⟨l, hl, hitl⟩
      rcases List.mem_map.mp hl with ⟨p, hp, rfl⟩
      exact gatherFetch_items_id env limit offset_id _ pairs hg p hp it hitl
    have hgood : ∀ it ∈ pageOf sort limit pairs, ∃ n, parsePyInt it.id = some n := by
      intro it hit
      rcases hids it hit with ⟨i, hid⟩
      exact ⟨i, by rw [hid, parsePyInt_intToStr]⟩
    rcases parseIds_some_of_good _ hgood with ⟨ns, hns⟩
    have hpage : pageOf sort limit pairs ≠ [] := hne
    cases hpg : pageOf sort limit pairs with
    | nil => exact absurd hpg hpage
    | cons it rest =>
      show ∃ v, nextOffsetOf (pageOf sort limit pairs) = some v
      rw [hpg] at hns ⊢
      rw [nextOffsetOf, hns]
      apply pyMin_isSome
      intro hnil
      subst hnil
      exact absurd ((parseIds_mem _ [] hns).2.2.mpr rfl) (List.cons_ne_nil it rest)

/-- C10 witness: a concrete non-empty page carries a `next_offset`. -/
theorem news_nonempty_page_has_next_offset_witness :
    ∃ resp, get_news envW (some wChans) 30 0 .newest = .ok resp ∧ resp.items ≠ [] ∧
      ∃ v, resp.next_offset = some v := by
  refine ⟨_, rfl, by decide, ?_⟩
  exact news_nonempty_page_has_next_offset envW (some wChans) 30 0 .newest _ rfl (by decide)

/-! ## Error boundary of the per-channel task (C1) -/

theorem fetch_one_resolve_error (env : TgEnv) (limit : Nat) (offset_id : Int)
    (ch : Str) (d : HTTPError) (h : resolve_channel env ch = .error d) :
    fetch_one env limit offset_id ch = .ok ([], some (ch, d.detail)) := by
  rw [fetch_one, h]

theorem fetch_one_resolve_ok (env : TgEnv) (limit : Nat) (offset_id : Int)
    (ch : Str) (ent : Entity) (h : resolve_channel env ch = .ok ent) :
    fetch_one env limit offset_id ch =
      match env.getMessages ent limit offset_id with
      | .error ex => .error ex
      | .ok msgs => .ok (itemsOfUpdates ent msgs, none) := by
  rw [fetch_one, h]

theorem gatherFetch_ok_of_all (env : TgEnv) (limit : Nat) (offset_id : Int) :
    ∀ chs : List Str, (∀ ch ∈ chs, ∃ p, fetch_one env limit offset_id ch = .ok p) →
      ∃ pairs, gatherFetch env limit offset_id chs = .ok pairs := by
  intro chs
  induction chs with
  | nil => exact fun _ => ⟨[], rfl⟩
  | cons ch rest ih =>
    intro h
    rcases h ch (List.mem_cons_self ch rest) with ⟨p, hp⟩
    rcases ih (fun c hc => h c (List.mem_cons_of_mem ch hc)) with ⟨ps, hps⟩
    exact ⟨p :: ps, by rw [gatherFetch, hp, hps]⟩

theorem get_news_ok_intro (env : TgEnv) (channels : Option Str) (limit : Nat)
    (offset_id : Int) (sort : SortMode)
    (pairs : List (List NewsItem × Option (Str × Str)))
    (hg : gatherFetch env limit offset_id (chanListOf env channels) = .ok pairs) :
    ∃ resp, get_news env channels limit offset_id sort = .ok resp := by
  by_cases he : (chanListOf env channels).isEmpty = true
  · exact ⟨⟨0, [], none, none⟩, by simp only [get_news]; rw [if_pos he]⟩
  · exact ⟨respOf sort limit pairs, by simp only [get_news]; rw [if_neg he, hg]⟩

/-- C1 amended: a resolution failure in a channel's task is caught inside the
task and recorded as one error-map entry without raising (so resolution
failures alone never abort the request), but a failure during the subsequent
message fetch is NOT caught: it raises past the task boundary and aborts the
whole request. -/
theorem fetch_error_boundary (env : TgEnv) (channels : Option Str) (limit : Nat)
    (offset_id : Int) (sort : SortMode) :
    ((∀ ch ∈ chanListOf env channels, ∀ ent, resolve_channel env ch = .ok ent →
        ∃ ups, env.getMessages ent limit offset_id = .ok ups) →
      ∃ resp, get_news env channels limit offset_id sort = .ok resp) ∧
    (∀ ch d, resolve_channel env ch = .error d →
      fetch_one env limit offset_id ch = .ok ([], some (ch, d.detail))) ∧
    (∀ ch ent e, resolve_channel env ch = .ok ent →
      env.getMessages ent limit offset_id = .error e →
      fetch_one env limit offset_id ch = .error e) := by
  refine ⟨?_, ?_, ?_⟩
  · intro hok
    have hall : ∀ ch ∈ chanListOf env channels, ∃ p,
        fetch_one env limit offset_id ch = .ok p := by
      intro ch hch
      cases hr : resolve_channel env ch with
      | error d =>
        exact ⟨([], some (ch, d.detail)), fetch_one_resolve_error env limit offset_id ch d hr⟩
      | ok ent =>
        rcases hok ch hch ent hr with ⟨ups, hups⟩
        refine ⟨(itemsOfUpdates ent ups, none), ?_⟩
        rw [fetch_one_resolve_ok env limit offset_id ch ent hr, hups]
    rcases gatherFetch_ok_of_all env limit offset_id _ hall with ⟨pairs, hg⟩
    exact get_news_ok_intro env channels limit offset_id sort pairs hg
  · exact fun ch d h => fetch_one_resolve_error env limit offset_id ch d h
  · intro ch ent e hr hm
    rw [fetch_one_resolve_ok env limit offset_id ch ent hr, hm]

/-- C1 counterexample: with a concrete environment in which the first
channel resolves but its `get_messages` raises, the whole `/news` request
fails with that exception (so the fetch failure is not caught, not recorded
in the error map, and the second channel's item is lost), while the second
channel alone returns one item. -/
theorem fetch_error_aborts_request_cex :
    get_news envBoom (some wChans) 30 0 .newest = .error "ConnectionError".toList ∧
    (get_news envBoom (some ['b', 'e', 't', 'a']) 30 0 .newest).toOption.map
      (fun r => r.total) = some 1 := ⟨rfl, rfl⟩

/-- C1 witness for the amended theorem, at concrete environments. -/
theorem fetch_error_boundary_witness :
    (∃ resp, get_news envW (some wChans) 30 0 .newest = .ok resp) ∧
    (∃ d, resolve_channel envAllFail "alpha".toList = .error d ∧
      fetch_one envAllFail 30 0 "alpha".toList = .ok ([], some ("alpha".toList, d.detail))) ∧
    (∃ e, envBoom.getMessages wEntA 30 0 = .error e ∧
      fetch_one envBoom 30 0 "alpha".toList = .error e) := by
  refine ⟨?_, ?_, ?_⟩
  · apply (fetch_error_boundary envW (some wChans) 30 0 .newest).1
    intro ch hch ent hr
    by_cases he : ent.id = 11
    · exact ⟨[.message wMsgHello, .message wMsgEmpty, .service], by simp [envW, he]⟩
    · exact ⟨[.message wMsgSecond], by simp [envW, he]⟩
  · exact ⟨_, rfl, (fetch_error_boundary envAllFail none 30 0 .newest).2.1 _ _ rfl⟩
  · exact ⟨_, rfl, (fetch_error_boundary envBoom none 30 0 .newest).2.2 _ wEntA _ rfl rfl⟩

/-! ## Media proxy (C8, C9) -/

/-- C8: the media proxy fails with the 404 `Media not found` error iff the
fetched message does not exist or carries none of photo/video/document; when
the message exists with one of those attachments it streams the downloaded
bytes with the inferred content type instead. -/
theorem media_404_iff (download : MediaMsg → List Nat) (fetched : Option MediaMsg) :
    (proxy_media download fetched = .error ⟨404, "Media not found".toList⟩ ↔
      fetched = none ∨
        ∃ m, fetched = some m ∧ m.photo = false ∧ m.video = none ∧ m.document = none) ∧
    (∀ m, fetched = some m → (m.photo = true ∨ m.video.isSome = true ∨ m.document.isSome = true) →
      proxy_media download fetched = .ok ⟨download m, proxyMime m⟩) := by
  cases fetched with
  | none =>
    refine ⟨⟨fun _ => Or.inl rfl, fun _ => rfl⟩, ?_⟩
    intro m hm
    cases hm
  | some m =>
    have hcond : (m.photo = false ∧ m.video = none ∧ m.document = none) ↔
        (m.photo || m.video.isSome || m.document.isSome) = false := by
      constructor
      · rintro ⟨h1, h2, h3⟩
        rw [h1, h2, h3]
        rfl
      · intro h
        simp only [Bool.or_eq_false_iff] at h
        refine ⟨h.1.1, ?_, ?_⟩
        · cases hv : m.video with
          | none => rfl
          | some v => rw [hv] at h; simp at h
        · cases hd : m.document with
          | none => rfl
          | some d => rw [hd] at h; simp at h
    constructor
    · by_cases hb : (m.photo || m.video.isSome || m.document.isSome) = true
      · rw [proxy_media, if_neg (by rw [hb]; simp)]
        constructor
        · intro h; cases h
        · rintro (h | ⟨m', hm', h1, h2, h3⟩)
          · cases h
          · rw [Option.some_inj] at hm'
            subst hm'
            rw [hcond.mp ⟨h1, h2, h3⟩] at hb
            cases hb
      · have hb' : (m.photo || m.video.isSome || m.document.isSome) = false := by
          cases h : (m.photo || m.video.isSome || m.document.isSome) with
          | false => rfl
          | true => exact absurd h hb
        rw [proxy_media, if_pos (by rw [hb']; rfl)]
        refine ⟨fun _ => Or.inr ⟨m, rfl, hcond.mpr hb'⟩, fun _ => rfl⟩
    · intro m' hm' hor
      rw [Option.some_inj] at hm'
      subst hm'
      have hb : (m.photo || m.video.isSome || m.document.isSome) = true := by
        rcases hor with h | h | h <;> simp [h]
      rw [proxy_media, if_neg (by rw [hb]; simp)]

/-- A message carrying only a photo. -/
def wMediaPhoto : MediaMsg := ⟨true, none, none⟩

/-- A message carrying a video with a declared mime type. -/
def wMediaVideo : MediaMsg := ⟨false, some ⟨some "video/mp4".toList, some 100⟩, none⟩

/-- A fixed byte producer standing in for `download_media`. -/
def wDownload : MediaMsg → List Nat := fun _ => [255, 216]

/-- C8 witness: a missing message 404s, a photo-only message streams. -/
theorem media_404_iff_witness :
    proxy_media wDownload none = .error ⟨404, "Media not found".toList⟩ ∧
    proxy_media wDownload (some wMediaPhoto) =
      .ok ⟨wDownload wMediaPhoto, proxyMime wMediaPhoto⟩ := by
  constructor
  · exact (media_404_iff wDownload none).1.mpr (Or.inl rfl)
  · exact (media_404_iff wDownload (some wMediaPhoto)).2 wMediaPhoto rfl (Or.inl rfl)

/-- C9: content-type precedence of the media proxy: a declared (truthy)
video mime wins; else a declared (truthy) document mime; else the fixed
`image/jpeg` whenever the message has a photo (photos carry no mime
metadata at all in this path); else the generic binary fallback. -/
theorem media_mime_precedence (m : MediaMsg) :
    (∀ v mi, m.video = some v → v.mime = some mi → mi ≠ [] → proxyMime m = mi) ∧
    (truthyOptStr (m.video.bind VideoAttachment.mime) = false →
      ∀ d mi, m.document = some d → d.mime = some mi → mi ≠ [] → proxyMime m = mi) ∧
    (truthyOptStr (m.video.bind VideoAttachment.mime) = false →
      truthyOptStr (m.document.bind DocumentAttachment.mime) = false →
      m.photo = true → proxyMime m = imageJpeg) ∧
    (truthyOptStr (m.video.bind VideoAttachment.mime) = false →
      truthyOptStr (m.document.bind DocumentAttachment.mime) = false →
      m.photo = false → proxyMime m = octetStream) := by
  refine ⟨?_, ?_, ?_, ?_⟩
  · intro v mi hv hmi hne
    have hb : m.video.bind VideoAttachment.mime = some mi := by rw [hv]; exact hmi
    have ht : truthyOptStr (m.video.bind VideoAttachment.mime) = true := by
      rw [hb, truthyOptStr]
      simp [List.isEmpty_iff, hne]
    rw [proxyMime, if_pos ht, hb]
    rfl
  · intro hvf d mi hd hmi hne
    have hb : m.document.bind DocumentAttachment.mime = some mi := by rw [hd]; exact hmi
    have ht : truthyOptStr (m.document.bind DocumentAttachment.mime) = true := by
      rw [hb, truthyOptStr]
      simp [List.isEmpty_iff, hne]
    rw [proxyMime, if_neg (by rw [hvf]; simp), if_pos ht, hb]
    rfl
  · intro hvf hdf hp
    rw [proxyMime, if_neg (by rw [hvf]; simp), if_neg (by rw [hdf]; simp), if_pos hp]
  · intro hvf hdf hp
    rw [proxyMime, if_neg (by rw [hvf]; simp), if_neg (by rw [hdf]; simp), if_neg (by rw [hp]; simp)]

/-- C9 witness: a declared video mime is served as-is; a photo without any
mime metadata is served as `image/jpeg`. -/
theorem media_mime_precedence_witness :
    proxyMime wMediaVideo = "video/mp4".toList ∧ proxyMime wMediaPhoto = imageJpeg := by
  constructor
  · exact (media_mime_precedence wMediaVideo).1 _ _ rfl rfl (by decide)
  · exact (media_mime_precedence wMediaPhoto).2.2.1 (by decide) (by decide) rfl

/-! ## Identifier normalisation (C2) -/

/-- C2 counterexample: on `"a@b"` the code's normalisation removes the
mid-string `@` (Python `str.replace` replaces every occurrence), while the
claimed leading-only normalisation would leave it unchanged. -/
theorem normEntity_midstring_cex :
    normEntity ['a', '@', 'b'] ≠ normEntitySpec ['a', '@', 'b'] ∧
    normEntity ['a', '@', 'b'] = ['a', 'b'] ∧
    normEntitySpec ['a', '@', 'b'] = ['a', '@', 'b'] := by
  refine ⟨by decide, by decide, by decide⟩

/-- C2 witness for the amended theorem: `" @durov "` (a documented form)
normalises to `durov` under both the code and the claimed normalisation. -/
theorem normEntity_documented_forms_witness :
    normEntity "  @durov ".toList = "durov".toList ∧
    normEntitySpec "  @durov ".toList = "durov".toList := by
  exact (normEntity_documented_forms "  @durov ".toList "durov".toList
    (by decide) (by decide)).2.1 (by decide)

/-! ## Error map and the X-TG-Errors header (C3) -/

theorem fetch_one_ok_cases (env : TgEnv) (limit : Nat) (offset_id : Int) (ch : Str)
    (p : List NewsItem × Option (Str × Str)) (h : fetch_one env limit offset_id ch = .ok p) :
    (∃ d, resolve_channel env ch = .error d ∧ p = ([], some (ch, d.detail))) ∨
    (∃ ent msgs, resolve_channel env ch = .ok ent ∧
      env.getMessages ent limit offset_id = .ok msgs ∧
      p = (itemsOfUpdates ent msgs, none)) := by
  cases hr : resolve_channel env ch with
  | error d =>
    rw [fetch_one_resolve_error env limit offset_id ch d hr, Except.ok.injEq] at h
    exact Or.inl ⟨d, rfl, h.symm⟩
  | ok ent =>
    rw [fetch_one_resolve_ok env limit offset_id ch ent hr] at h
    cases hm : env.getMessages ent limit offset_id with
    | error ex => rw [hm] at h; cases h
    | ok msgs =>
      rw [hm, Except.ok.injEq] at h
      exact Or.inr ⟨ent, msgs, rfl, hm, h.symm⟩

theorem gatherFetch_ok_cases (env : TgEnv) (limit : Nat) (offset_id : Int) :
    ∀ (chs : List Str) (pairs : List (List NewsItem × Option (Str × Str))),
      gatherFetch env limit offset_id chs = .ok pairs →
      ∀ p ∈ pairs,
        (∃ ch d, ch ∈ chs ∧ resolve_channel env ch = .error d ∧
          p = ([], some (ch, d.detail))) ∨
        (∃ ent msgs, env.getMessages ent limit offset_id = .ok msgs ∧
          p = (itemsOfUpdates ent msgs, none)) := by
  intro chs
  induction chs with
  | nil =>
    intro pairs h
    cases h
    intro p hp
    simp at hp
  | cons ch rest ih =>
    intro pairs h
    rw [gatherFetch] at h
    cases hf : fetch_one env limit offset_id ch with
    | error e => rw [hf] at h; cases h
    | ok p0 =>
      rw [hf] at h
      cases hg : gatherFetch env limit offset_id rest with
      | error e => rw [hg] at h; cases h
      | ok ps =>
        rw [hg] at h
        cases h
        intro p hp
        rcases List.mem_cons.mp hp with rfl | hp
        · rcases fetch_one_ok_cases env limit offset_id ch p hf with
            ⟨d, hd, hpv⟩ | ⟨ent, msgs, _, hm, hpv⟩
          · exact Or.inl ⟨ch, d, List.mem_cons_self ch rest, hd, hpv⟩
          · exact Or.inr ⟨ent, msgs, hm, hpv⟩
        · rcases ih ps hg p hp with ⟨ch', d, hch', hd, hpv⟩ | hr
          · exact Or.inl ⟨ch', d, List.mem_cons_of_mem ch hch', hd, hpv⟩
          · exact Or.inr hr

theorem gatherFetch_all_fail (env : TgEnv) (limit : Nat) (offset_id : Int) :
    ∀ chs : List Str, (∀ ch ∈ chs, ∃ d, resolve_channel env ch = .error d) →
      ∃ pairs, gatherFetch env limit offset_id chs = .ok pairs ∧
        (pairs.map Prod.fst).flatten = [] ∧
        ∀ ch ∈ chs, ∃ p ∈ pairs, ∃ d, resolve_channel env ch = .error d ∧
          p.2 = some (ch, d.detail) := by
  intro chs
  induction chs with
  | nil => exact fun _ => ⟨[], rfl, rfl, by simp⟩
  | cons ch rest ih =>
    intro h
    rcases h ch (List.mem_cons_self ch rest) with ⟨d, hd⟩
    rcases ih (fun c hc => h c (List.mem_cons_of_mem ch hc)) with ⟨ps, hps, hflat, hcover⟩
    refine ⟨([], some (ch, d.detail)) :: ps, ?_, ?_, ?_⟩
    · rw [gatherFetch, fetch_one_resolve_error env limit offset_id ch d hd, hps]
    · simp only [List.map_cons, List.flatten_cons, List.nil_append]
      exact hflat
    · intro c hc
      rcases List.mem_cons.mp hc with rfl | hc
      · exact ⟨([], some (c, d.detail)), List.mem_cons_self _ ps, d, hd, rfl⟩
      · rcases hcover c hc with ⟨p, hp, d', hd', hpd⟩
        exact ⟨p, List.mem_cons_of_mem _ hp, d', hd', hpd⟩

theorem mem_dictInsert_elim (m : List (Str × Str)) (k v : Str) :
    ∀ kv ∈ dictInsert m k v, kv ∈ m ∨ kv = (k, v) := by
  intro kv hkv
  rw [dictInsert] at hkv
  by_cases ha : m.any (fun p => decide (p.1 = k)) = true
  · rw [if_pos ha] at hkv
    rcases List.mem_map.mp hkv with ⟨p, hp, hpe⟩
    by_cases hk : p.1 = k
    · rw [if_pos hk] at hpe
      exact Or.inr hpe.symm
    · rw [if_neg hk] at hpe
      exact Or.inl (hpe ▸ hp)
  · rw [if_neg ha] at hkv
    rcases List.mem_append.mp hkv with h | h
    · exact Or.inl h
    · exact Or.inr (List.mem_singleton.mp h)

theorem dictInsert_key_mem (m : List (Str × Str)) (k v : Str) :
    ∃ w, (k, w) ∈ dictInsert m k v := by
  rw [dictInsert]
  by_cases ha : m.any (fun p => decide (p.1 = k)) = true
  · rw [if_pos ha]
    rcases List.any_eq_true.mp ha with ⟨p, hp, hpk⟩
    rw [decide_eq_true_iff] at hpk
    refine ⟨v, List.mem_map.mpr ⟨p, hp, ?_⟩⟩
    rw [if_pos hpk]
  · rw [if_neg ha]
    exact ⟨v, List.mem_append.mpr (Or.inr (List.mem_singleton.mpr rfl))⟩

theorem dictInsert_preserves_key (m : List (Str × Str)) (k v k' : Str)
    (h : ∃ w, (k', w) ∈ m) : ∃ w, (k', w) ∈ dictInsert m k v := by
  by_cases hk : k' = k
  · subst hk
    exact dictInsert_key_mem m k' v
  · rcases h with ⟨w, hw⟩
    rw [dictInsert]
    by_cases ha : m.any (fun p => decide (p.1 = k)) = true
    · rw [if_pos ha]
      refine ⟨w, List.mem_map.mpr ⟨(k', w), hw, ?_⟩⟩
      rw [if_neg hk]
    · rw [if_neg ha]
      exact ⟨w, List.mem_append.mpr (Or.inl hw)⟩

/-- The fold step accumulating the error dict. -/
def errStep (m : List (Str × Str)) (p : List NewsItem × Option (Str × Str)) :
    List (Str × Str) :=
  match p.2 with
  | none => m
  | some kv => dictInsert m kv.1 kv.2

theorem errorsOf_eq_foldl (pairs : List (List NewsItem × Option (Str × Str))) :
    errorsOf pairs = pairs.foldl errStep [] := by
  rw [errorsOf]
  congr 1

theorem errors_fold_mem (pairs : List (List NewsItem × Option (Str × Str))) :
    ∀ (m : List (Str × Str)) (kv : Str × Str), kv ∈ pairs.foldl errStep m →
      kv ∈ m ∨ ∃ p ∈ pairs, p.2 = some kv := by
  induction pairs with
  | nil =>
    intro m kv h
    exact Or.inl h
  | cons p0 rest ih =>
    intro m kv h
    rw [List.foldl_cons] at h
    rcases ih (errStep m p0) kv h with hm | ⟨p, hp, hpe⟩
    · rw [errStep] at hm
      cases hp0 : p0.2 with
      | none => rw [hp0] at hm; exact Or.inl hm
      | some kv0 =>
        rw [hp0] at hm
        rcases mem_dictInsert_elim m kv0.1 kv0.2 kv hm with hm | rfl
        · exact Or.inl hm
        · exact Or.inr ⟨p0, List.mem_cons_self p0 rest, by rw [hp0]⟩
    · exact Or.inr ⟨p, List.mem_cons_of_mem p0 hp, hpe⟩

theorem errors_fold_key (pairs : List (List NewsItem × Option (Str × Str))) :
    ∀ (m : List (Str × Str)) (k : Str),
      ((∃ w, (k, w) ∈ m) ∨ ∃ p ∈ pairs, ∃ d, p.2 = some (k, d)) →
      ∃ w, (k, w) ∈ pairs.foldl errStep m := by
  induction pairs with
  | nil =>
    intro m k h
    rcases h with h | ⟨p, hp, _⟩
    · exact h
    · simp at hp
  | cons p0 rest ih =>
    intro m k h
    rw [List.foldl_cons]
    rcases h with ⟨w, hw⟩ | ⟨p, hp, d, hpe⟩
    · apply ih
      left
      rw [errStep]
      cases hp0 : p0.2 with
      | none => exact ⟨w, hw⟩
      | some kv0 => exact dictInsert_preserves_key m kv0.1 kv0.2 k ⟨w, hw⟩
    · rcases List.mem_cons.mp hp with rfl | hp
      · apply ih
        left
        rw [errStep, hpe]
        exact dictInsert_key_mem m k d
      · exact ih (errStep m p0) k (Or.inr ⟨p, hp, d, hpe⟩)

theorem hasSubstr_cons_of (pat : Str) (c : Char) (s : Str)
    (h : hasSubstr pat s = true) : hasSubstr pat (c :: s) = true := by
  rw [hasSubstr, Bool.or_eq_true]
  exact Or.inr h

theorem hasSubstr_append_left (pat s : Str) :
    ∀ pre : Str, hasSubstr pat s = true → hasSubstr pat (pre ++ s) = true := by
  intro pre
  induction pre with
  | nil => exact fun h => h
  | cons c rest ih => exact fun h => hasSubstr_cons_of pat c _ (ih h)

theorem hasSubstr_self_append (k r : Str) : hasSubstr k (k ++ r) = true := by
  have hp : k.isPrefixOf (k ++ r) = true := by
    rw [List.isPrefixOf_iff_prefix]
    exact k.prefix_append r
  cases hkr : k ++ r with
  | nil => rw [hkr] at hp; simpa [hasSubstr] using hp
  | cons c rest =>
    rw [hkr] at hp
    rw [hasSubstr, Bool.or_eq_true]
    exact Or.inl hp

theorem joinErrs_singleton (kv : Str × Str) : joinErrs [kv] = kv.1 ++ ':' :: kv.2 := rfl

theorem joinErrs_cons₂ (kv r : Str × Str) (rs : List (Str × Str)) :
    joinErrs (kv :: r :: rs) = kv.1 ++ ':' :: kv.2 ++ ';' :: ' ' :: joinErrs (r :: rs) := rfl

theorem joinErrs_mem_substr (errs : List (Str × Str)) (k v : Str)
    (h : (k, v) ∈ errs) : hasSubstr k (joinErrs errs) = true := by
  induction errs with
  | nil => simp at h
  | cons kv rest ih =>
    rcases List.mem_cons.mp h with hkv | hmem
    · have hk : kv.1 = k := by rw [← hkv]
      cases rest with
      | nil =>
        rw [joinErrs_singleton, hk]
        exact hasSubstr_self_append k _
      | cons r rs =>
        rw [joinErrs_cons₂, hk, List.append_assoc]
        exact hasSubstr_self_append k _
    · cases rest with
      | nil => simp at hmem
      | cons r rs =>
        rw [joinErrs_cons₂, List.append_assoc, List.cons_append]
        have h1 := ih hmem
        have h2 := hasSubstr_cons_of k ' ' _ h1
        have h3 := hasSubstr_cons_of k ';' _ h2
        have h4 := hasSubstr_append_left k _ kv.2 h3
        have h5 := hasSubstr_cons_of k ':' _ h4
        exact hasSubstr_append_left k _ kv.1 h5

theorem joinErrs_ne_nil (errs : List (Str × Str)) (h : errs ≠ []) :
    joinErrs errs ≠ [] := by
  cases errs with
  | nil => exact absurd rfl h
  | cons kv rest =>
    cases rest with
    | nil =>
      rw [joinErrs_singleton]
      intro hc
      rcases List.append_eq_nil.mp hc with ⟨_, h2⟩
      cases h2
    | cons r rs =>
      rw [joinErrs_cons₂]
      intro hc
      rcases List.append_eq_nil.mp hc with ⟨_, h2⟩
      cases h2

/-- C3: a `/news` request in which every requested channel fails resolution
still succeeds (HTTP 200) with `items=[]`, `total=0` and a non-empty
`X-TG-Errors` header in which every failing channel name occurs; conversely
the header is present only when at least one requested channel failed, and
its value is the error-map entries joined in the `name:reason; name:reason`
format. -/
theorem errors_header_iff (env : TgEnv) (channels : Option Str) (limit : Nat)
    (offset_id : Int) (sort : SortMode) :
    ((chanListOf env channels ≠ []) →
      (∀ ch ∈ chanListOf env channels, ∃ d, resolve_channel env ch = .error d) →
      ∃ resp, get_news env channels limit offset_id sort = .ok resp ∧
        resp.items = [] ∧ resp.total = 0 ∧
        ∃ hv, resp.xTgErrors = some hv ∧ hv ≠ [] ∧
          ∀ ch ∈ chanListOf env channels, hasSubstr ch hv = true) ∧
    (∀ resp hv, get_news env channels limit offset_id sort = .ok resp →
      resp.xTgErrors = some hv →
      ∃ errs, errs ≠ [] ∧ hv = joinErrs errs ∧
        ∀ kv ∈ errs, kv.1 ∈ chanListOf env channels ∧
          ∃ d, resolve_channel env kv.1 = .error d ∧ kv.2 = d.detail) := by
  constructor
  · intro hne hfail
    rcases gatherFetch_all_fail env limit offset_id _ hfail with ⟨pairs, hg, hflat, hcover⟩
    have he : (chanListOf env channels).isEmpty = false := by
      cases hcl : chanListOf env channels with
      | nil => exact absurd hcl hne
      | cons a l => rfl
    have hkey : ∀ ch ∈ chanListOf env channels,
        ∃ w, (ch, w) ∈ pairs.foldl errStep [] := by
      intro ch hch
      rcases hcover ch hch with ⟨p, hp, d, _, hpd⟩
      exact errors_fold_key pairs [] ch (Or.inr ⟨p, hp, d.detail, hpd⟩)
    have herrne : errorsOf pairs ≠ [] := by
      cases hcl : chanListOf env channels with
      | nil => exact absurd hcl hne
      | cons ch0 tl =>
        rcases hkey ch0 (by rw [hcl]; exact List.mem_cons_self ch0 tl) with ⟨w, hw⟩
        rw [← errorsOf_eq_foldl] at hw
        intro hc
        rw [hc] at hw
        simp at hw
    have hie : (errorsOf pairs).isEmpty = false := by
      cases hc : errorsOf pairs with
      | nil => exact absurd hc herrne
      | cons a l => rfl
    refine ⟨respOf sort limit pairs, ?_, ?_, ?_, ?_⟩
    · simp only [get_news]
      rw [if_neg (by rw [he]; simp), hg]
    · show pageOf sort limit pairs = []
      rw [pageOf, hflat, pySort_nil, List.take_nil]
    · show (pageOf sort limit pairs).length = 0
      rw [pageOf, hflat, pySort_nil, List.take_nil]
      rfl
    · refine ⟨joinErrs (errorsOf pairs), ?_, joinErrs_ne_nil _ herrne, ?_⟩
      · show (if (errorsOf pairs).isEmpty then none else some (joinErrs (errorsOf pairs)))
          = some (joinErrs (errorsOf pairs))
        rw [hie]
        rfl
      · intro ch hch
        rcases hkey ch hch with ⟨w, hw⟩
        rw [← errorsOf_eq_foldl] at hw
        exact joinErrs_mem_substr (errorsOf pairs) ch w hw
  · intro resp hv h hx
    rcases get_news_ok_elim env channels limit offset_id sort resp h with
      ⟨_, rfl⟩ | ⟨_, pairs, hg, rfl⟩
    · cases hx
    · have hx' : (if (errorsOf pairs).isEmpty then none
          else some (joinErrs (errorsOf pairs))) = some hv := hx
      by_cases hie : (errorsOf pairs).isEmpty = true
      · rw [if_pos hie] at hx'
        cases hx'
      · rw [if_neg hie, Option.some_inj] at hx'
        refine ⟨errorsOf pairs, fun hc => hie (by rw [hc]; rfl), hx'.symm, ?_⟩
        intro kv hkv
        rw [errorsOf_eq_foldl] at hkv
        rcases errors_fold_mem pairs [] kv hkv with hm | ⟨p, hp, hpe⟩
        · simp at hm
        · rcases gatherFetch_ok_cases env limit offset_id _ pairs hg p hp with
            ⟨ch, d, hch, hd, hpv⟩ | ⟨ent, msgs, _, hpv⟩
          · rw [hpv] at hpe
            simp only [Option.some_inj] at hpe
            rw [← hpe]
            exact ⟨hch, d, hd, rfl⟩
          · rw [hpv] at hpe
            cases hpe

/-- C3 witness: with both requested channels failing resolution, the request
succeeds with an empty page and a header containing both channel names. -/
theorem errors_header_iff_witness :
    ∃ resp, get_news envAllFail (some wChans) 30 0 .newest = .ok resp ∧
      resp.items = [] ∧ resp.total = 0 ∧
      ∃ hv, resp.xTgErrors = some hv ∧ hv ≠ [] ∧
        hasSubstr "alpha".toList hv = true ∧ hasSubstr "beta".toList hv = true := by
  have hcl : chanListOf envAllFail (some wChans) = ["alpha".toList, "beta".toList] := by
    decide
  rcases (errors_header_iff envAllFail (some wChans) 30 0 .newest).1
    (by rw [hcl]; simp)
    (by
      intro ch hch
      rw [hcl] at hch
      simp only [List.mem_cons, List.not_mem_nil, or_false] at hch
      rcases hch with rfl | rfl
      · exact ⟨_, rfl⟩
      · exact ⟨_, rfl⟩) with ⟨resp, hok, hitems, htotal, hv, hxv, hvn, hall⟩
  exact ⟨resp, hok, hitems, htotal, hv, hxv, hvn,
    hall _ (by rw [hcl]; simp), hall _ (by rw [hcl]; simp)⟩
